import Mathlib

/-!
Verification of the mod caching-proxy repository (Go, package `main`).

The development shallowly embeds the pure cores of the program:

* the path codec `encodePath` / `decodePath` (main.go:230-282),
* the token classifier `hexVer` and resolver `findMod` (main.go:376-414),
* the progress-line scanner and `.info` metadata synthesis of `fetchMod`
  (main.go:416-470),
* the error formatter of `runError.Error` (main.go:284-305),
* the HTTP request router of `main` (main.go:60-90).

Go strings are modelled as Lean `String` (a list of unicode scalar values,
matching Go's `for _, r := range s` rune iteration; all inputs of interest
are ASCII, where byte and rune iteration agree).  Filesystem and process
state are not modelled; the embedded functions are the pure computations
the program performs on its strings.
-/

/-! ### Character helpers -/

/-- Case shift used by `encodePath`: Go's byte(r + 'a' - 'A'). -/
def toLowerCh (c : Char) : Char := Char.ofNat (c.toNat + 32)

/-- Case shift used by `decodePath`: Go's byte(r + 'A' - 'a'). -/
def toUpperCh (c : Char) : Char := Char.ofNat (c.toNat - 32)

/-! ### Path codec (encodePath, decodePath; main.go:230-282)

`encodePath` escapes each uppercase ASCII letter `X` as `!x` (when the input
has any uppercase letter; otherwise it returns the input unchanged) and fails
on inputs containing `!` or a non-ASCII rune.  `decodePath` reverses the
mapping, rejecting a dangling `!`, an `!` followed by a non-lowercase letter,
a bare uppercase letter, and any non-ASCII rune. -/

/-- Body of the escaping loop of `encodePath` (main.go:244-250). -/
def encodeLoop : List Char → List Char
  | [] => []
  | c :: t =>
    if 'A' ≤ c ∧ c ≤ 'Z' then '!' :: toLowerCh c :: encodeLoop t
    else c :: encodeLoop t

/-- Embeds `encodePath` (main.go:230-252); `none` is Go's error return. -/
def encodePath (s : String) : Option String :=
  if s.data.any (fun r => decide (r = '!' ∨ 128 ≤ r.toNat)) then none
  else if s.data.any (fun r => decide ('A' ≤ r ∧ r ≤ 'Z')) then
    some (String.mk (encodeLoop s.data))
  else some s

/-- The scanning loop of `decodePath` (main.go:257-277); the Bool argument is
the `bang` flag, `none` signals the invalid result. -/
def decodeLoop : Bool → List Char → Option (List Char)
  | bang, [] => if bang then none else some []
  | bang, r :: t =>
    if 128 ≤ r.toNat then none
    else if bang then
      if r < 'a' ∨ 'z' < r then none
      else (decodeLoop false t).map (fun l => toUpperCh r :: l)
    else if r = '!' then decodeLoop true t
    else if 'A' ≤ r ∧ r ≤ 'Z' then none
    else (decodeLoop false t).map (fun l => r :: l)

/-- Embeds `decodePath` (main.go:254-282). -/
def decodePath (s : String) : String × Bool :=
  match decodeLoop false s.data with
  | some l => (String.mk l, true)
  | none => ("", false)

/-- True when the list contains an `!` immediately followed by a character
that is not a lowercase ASCII letter. -/
def hasBadBang : List Char → Bool
  | [] => false
  | [_] => false
  | c :: c2 :: t => (c = '!' && !decide ('a' ≤ c2 ∧ c2 ≤ 'z')) || hasBadBang (c2 :: t)

/-- True when the list contains an uppercase ASCII letter. -/
def hasUpperCh (l : List Char) : Bool := l.any (fun c => decide ('A' ≤ c ∧ c ≤ 'Z'))

/-- True when the list contains a non-ASCII character. -/
def hasNonAscii (l : List Char) : Bool := l.any (fun c => decide (128 ≤ c.toNat))

/-! ### Token classification and resolution (hexVer, findMod; main.go:376-414)

`findMod` in the source reads the cached version list from disk and then
resolves the requested token against it; the embedding takes the list of
known versions as an argument and performs the same resolution. -/

/-- Embeds `hexVer` (main.go:376-384): every character is lowercase hex. -/
def hexVer (ver : String) : Bool :=
  ver.data.all (fun c => decide (('0' ≤ c ∧ c ≤ '9') ∨ ('a' ≤ c ∧ c ≤ 'f')))

/-- Index of the last occurrence of `c`, as Go's `strings.LastIndex` with a
one-character needle (`none` is Go's -1). -/
def lastIdxOf (c : Char) : List Char → Option Nat
  | [] => none
  | a :: t =>
    match lastIdxOf c t with
    | some i => some (i + 1)
    | none => if a = c then some 0 else none

/-- The per-version matching test of `findMod`'s abbreviated branch
(main.go:401-411): the fragment after the last `-` and the token must be
prefixes of one another. -/
def dashMatch (ver v : String) : Bool :=
  match lastIdxOf '-' v.data with
  | none => false
  | some i =>
    List.isPrefixOf ver.data (v.data.drop (i + 1)) ||
      List.isPrefixOf (v.data.drop (i + 1)) ver.data

/-- Embeds the resolution loop of `findMod` (main.go:386-414) over the list
of known versions read from the cache. -/
def findMod (ver : String) : List String → String × Bool
  | [] => (ver, false)
  | v :: rest =>
    if hexVer ver then
      match lastIdxOf '-' v.data with
      | none => findMod ver rest
      | some i =>
        if List.isPrefixOf ver.data (v.data.drop (i + 1)) then (v, true)
        else if List.isPrefixOf (v.data.drop (i + 1)) ver.data then (v, true)
        else findMod ver rest
    else
      if ver = v then (ver, true) else findMod ver rest

/-! ### Progress-line scanning (fetchMod; main.go:416-470)

After `go get` succeeds, `fetchMod` scans the captured stderr line by line
for a `... downloading <mod> <version>` report on the requested module and
takes its version field; if no line matches, the original token stands. -/

/-- Whitespace recognised by Go's `strings.Fields` on ASCII text. -/
def goIsSpace (c : Char) : Bool :=
  c = ' ' || c = '\t' || c = '\n' || c = '\x0b' || c = '\x0c' || c = '\r'

/-- Accumulator loop for `goFields`; `cur` is the current field, reversed. -/
def goFieldsAux : List Char → List Char → List String
  | [], cur => if cur = [] then [] else [String.mk cur.reverse]
  | c :: t, cur =>
    if goIsSpace c then
      if cur = [] then goFieldsAux t [] else String.mk cur.reverse :: goFieldsAux t []
    else goFieldsAux t (c :: cur)

/-- Models Go's `strings.Fields`: split around runs of whitespace, no empty
fields. -/
def goFields (s : String) : List String := goFieldsAux s.data []

/-- The per-line test of `fetchMod`'s scanning loop (main.go:443-448):
exactly four fields, the second `downloading`, the third the module. -/
def lineVer (mod line : String) : Option String :=
  match goFields line with
  | [_, w, p, v] => if w = "downloading" ∧ p = mod then some v else none
  | _ => none

/-- Embeds the scanning loop of `fetchMod` (main.go:433-469): the version of
the first matching line, or the requested version at end of input. -/
def fetchScanVer (mod ver : String) : List String → String
  | [] => ver
  | l :: rest =>
    match lineVer mod l with
    | some v => v
    | none => fetchScanVer mod ver rest

/-! ### Metadata synthesis (fetchMod; main.go:449-465)

When the resolved version differs from an abbreviated-hex token and the
resolved version has no `.info` artifact yet, `fetchMod` writes a JSON
object whose `Time` comes from the middle segment of a three-segment
pseudo-version (layout `20060102150405`, i.e. YYYYMMDDHHMMSS, read as UTC)
and from the current time otherwise.  Times are modelled as UTC wall-clock
tuples; `time.Now()` becomes an arbitrary `GoTime` argument. -/

/-- Wall-clock instant, as produced by Go's `time.Parse` on a zone-less
layout (UTC). -/
structure GoTime where
  year : Nat
  month : Nat
  day : Nat
  hour : Nat
  minute : Nat
  second : Nat
deriving DecidableEq

/-- Left-pad a decimal rendering with zeros to width `w`. -/
def padNum (w n : Nat) : String :=
  String.mk (List.replicate (w - (toString n).length) '0') ++ toString n

/-- Go's `t.Format(time.RFC3339)` for a UTC instant. -/
def fmtRFC3339 (t : GoTime) : String :=
  padNum 4 t.year ++ "-" ++ padNum 2 t.month ++ "-" ++ padNum 2 t.day ++ "T" ++
    padNum 2 t.hour ++ ":" ++ padNum 2 t.minute ++ ":" ++ padNum 2 t.second ++ "Z"

/-- Value of a list of decimal digits. -/
def natOfDigits (l : List Char) : Nat := l.foldl (fun a c => a * 10 + (c.toNat - 48)) 0

/-- Gregorian leap-year rule used by Go's `time` package. -/
def isLeap (y : Nat) : Bool := (y % 4 = 0 && y % 100 ≠ 0) || y % 400 = 0

/-- Days in a month, as validated by Go's `time.Parse`. -/
def daysIn (y m : Nat) : Nat :=
  if m = 2 then (if isLeap y then 29 else 28)
  else if m = 4 ∨ m = 6 ∨ m = 9 ∨ m = 11 then 30
  else 31

/-- Models Go's `time.Parse("20060102150405", s)` (main.go:458): fourteen
decimal digits YYYYMMDDHHMMSS, with the field ranges `time.Parse` checks;
`none` is the error return. -/
def parseStamp (s : String) : Option GoTime :=
  let l := s.data
  if l.length = 14 ∧ l.all Char.isDigit then
    let y := natOfDigits (l.take 4)
    let mo := natOfDigits ((l.drop 4).take 2)
    let d := natOfDigits ((l.drop 6).take 2)
    let h := natOfDigits ((l.drop 8).take 2)
    let mi := natOfDigits ((l.drop 10).take 2)
    let se := natOfDigits ((l.drop 12).take 2)
    if 1 ≤ mo ∧ mo ≤ 12 ∧ 1 ≤ d ∧ d ≤ daysIn y mo ∧ h ≤ 23 ∧ mi ≤ 59 ∧ se ≤ 59 then
      some ⟨y, mo, d, h, mi, se⟩
    else none
  else none

/-- Split at every occurrence of `c`, keeping empty segments: Go's
`strings.Split` with a one-character separator. -/
def splitOnChar (c : Char) : List Char → List (List Char)
  | [] => [[]]
  | a :: t =>
    let r := splitOnChar c t
    if a = c then [] :: r
    else
      match r with
      | [] => [[a]]
      | h :: t2 => (a :: h) :: t2

/-- Go's `strings.Split(v, "-")` (main.go:456). -/
def goSplitDash (v : String) : List String := (splitOnChar '-' v.data).map String.mk

/-- The JSON object written by `fetchMod` (main.go:463). -/
def infoJson (v t : String) : String :=
  "\x7b\"Version\":\"" ++ v ++ "\",\"Time\":\"" ++ t ++ "\"\x7d"

/-- Embeds the `.info` synthesis of `fetchMod` (main.go:455-464): the body
built for the resolved version `v` when its `.info` file is absent, with
`now` standing for `time.Now()`; `none` is the `time.Parse` error return. -/
def synthInfo (v : String) (now : GoTime) : Option String :=
  let ss := goSplitDash v
  if h : ss.length = 3 then
    (parseStamp (ss.get ⟨1, by omega⟩)).map (fun t => infoJson v (fmtRFC3339 t))
  else some (infoJson v (fmtRFC3339 now))

/-! ### Error formatting (runError.Error; main.go:284-305)

`runCmd` wraps a failed command in a `runError`; its `Error` method renders
the command line, the underlying error, and the captured output with
trailing newlines trimmed and every remaining newline indented by a tab. -/

/-- Go's `bytes.TrimRight(b, "\n")`. -/
def dropTrailingNl (l : List Char) : List Char := (l.reverse.dropWhile (fun c => c = '\n')).reverse

/-- Go's `strings.Replace(s, "\n", "\n\t", -1)` (main.go:294). -/
def replaceNl : List Char → List Char
  | [] => []
  | c :: t => if c = '\n' then '\n' :: '\t' :: replaceNl t else c :: replaceNl t

/-- Deletes the tab that `replaceNl` inserted after each newline. -/
def stripTabAfterNl : List Char → List Char
  | [] => []
  | [c] => [c]
  | c :: c2 :: t =>
    if c = '\n' ∧ c2 = '\t' then '\n' :: stripTabAfterNl t
    else c :: stripTabAfterNl (c2 :: t)

/-- Embeds `runError.Error` (main.go:290-297): `cmd` is the joined command
line, `errMsg` the underlying error's message, `stderr` the captured
combined output. -/
def runErrorMessage (cmd errMsg stderr : String) : String :=
  let text := cmd ++ ": " ++ errMsg
  let st := dropTrailingNl stderr.data
  if st.length > 0 then text ++ ":\n\t" ++ String.mk (replaceNl st) else text

/-! ### HTTP request routing (main; main.go:60-90)

The handler decodes the whole trimmed URL path with the path codec before
any splitting, answers 404 on a decode failure, on a missing `/@v/`
separator and on an unknown extension, and otherwise dispatches the module
path, version token and extension taken from the decoded path. -/

/-- Go's `strings.TrimLeft(path, "/")`. -/
def trimSlash : List Char → List Char
  | '/' :: t => trimSlash t
  | l => l

/-- Index of the first occurrence of `sub`: Go's `strings.Index`
(`none` is -1). -/
def firstIdx (sub : List Char) : List Char → Option Nat
  | [] => if sub = [] then some 0 else none
  | c :: t =>
    if List.isPrefixOf sub (c :: t) then some 0
    else (firstIdx sub t).map (fun i => i + 1)

/-- Outcome of the HTTP routing layer: 404, or a `serveMod` dispatch with
module path, version token and extension. -/
inductive Route
  | notFound
  | serve (mod ver ext : String)
deriving DecidableEq

/-- Embeds the request handler of `main` (main.go:60-90) as a function of
the request method and raw URL path. -/
def handleReq (method urlPath : String) : Route :=
  if method ≠ "GET" then Route.notFound
  else
    let d := decodePath (String.mk (trimSlash urlPath.data))
    if d.2 = false then Route.notFound
    else
      let path := d.1
      match firstIdx "/@v/".data path.data with
      | none => Route.notFound
      | some i =>
        let mod := String.mk (path.data.take i)
        let file := String.mk (path.data.drop (i + 4))
        if file = "list" then Route.serve mod "" "list"
        else
          match lastIdxOf '.' file.data with
          | none => Route.notFound
          | some j =>
            let ext := String.mk (file.data.drop j)
            if ext ≠ ".info" ∧ ext ≠ ".mod" ∧ ext ≠ ".zip" then Route.notFound
            else Route.serve mod (String.mk (file.data.take j)) ext

/-! ### Case-shift arithmetic -/

/-- Char order is definitionally the order of the underlying code points. -/
theorem charLe_iff (a b : Char) : a ≤ b ↔ a.toNat ≤ b.toNat := Iff.rfl

/-- Char strict order is definitionally that of the underlying code points. -/
theorem charLt_iff (a b : Char) : a < b ↔ a.toNat < b.toNat := Iff.rfl

/-- Code points below the surrogate range round-trip through Char.ofNat. -/
theorem toNat_ofNat_small (n : Nat) (h : n < 55296) : (Char.ofNat n).toNat = n := by
  have hv : n.isValidChar := Or.inl h
  simp only [Char.ofNat, hv, dite_true, Char.ofNatAux, Char.toNat]
  rfl

/-- Characters with equal code points are equal. -/
theorem char_eq_of_toNat_eq (a b : Char) (h : a.toNat = b.toNat) : a = b :=
  Char.eq_of_val_eq (UInt32.ext h)

/-- Shifting an uppercase letter down lands 32 above it. -/
theorem toLowerCh_toNat {c : Char} (h1 : 'A' ≤ c) (h2 : c ≤ 'Z') :
    (toLowerCh c).toNat = c.toNat + 32 := by
  have hb : c.toNat ≤ 90 := h2
  exact toNat_ofNat_small _ (by omega)

/-- Shifting an uppercase letter down gives a lowercase letter. -/
theorem toLowerCh_isLower {c : Char} (h1 : 'A' ≤ c) (h2 : c ≤ 'Z') :
    'a' ≤ toLowerCh c ∧ toLowerCh c ≤ 'z' := by
  have ha : 65 ≤ c.toNat := h1
  have hb : c.toNat ≤ 90 := h2
  have ht := toLowerCh_toNat h1 h2
  refine ⟨?_, ?_⟩
  · show ('a' : Char).toNat ≤ (toLowerCh c).toNat
    rw [ht]; show 97 ≤ c.toNat + 32; omega
  · show (toLowerCh c).toNat ≤ ('z' : Char).toNat
    rw [ht]; show c.toNat + 32 ≤ 122; omega

/-- Shifting a lowercase letter up lands 32 below it. -/
theorem toUpperCh_toNat {c : Char} (h1 : 'a' ≤ c) (h2 : c ≤ 'z') :
    (toUpperCh c).toNat = c.toNat - 32 := by
  have hb : c.toNat ≤ 122 := h2
  exact toNat_ofNat_small _ (by omega)

/-- Shifting a lowercase letter up gives an uppercase letter. -/
theorem toUpperCh_isUpper {c : Char} (h1 : 'a' ≤ c) (h2 : c ≤ 'z') :
    'A' ≤ toUpperCh c ∧ toUpperCh c ≤ 'Z' := by
  have ha : 97 ≤ c.toNat := h1
  have hb : c.toNat ≤ 122 := h2
  have ht := toUpperCh_toNat h1 h2
  refine ⟨?_, ?_⟩
  · show ('A' : Char).toNat ≤ (toUpperCh c).toNat
    rw [ht]; show 65 ≤ c.toNat - 32; omega
  · show (toUpperCh c).toNat ≤ ('Z' : Char).toNat
    rw [ht]; show c.toNat - 32 ≤ 90; omega

/-- The up-shift undoes the down-shift on uppercase letters. -/
theorem toUpperCh_toLowerCh {c : Char} (h1 : 'A' ≤ c) (h2 : c ≤ 'Z') :
    toUpperCh (toLowerCh c) = c := by
  obtain ⟨g1, g2⟩ := toLowerCh_isLower h1 h2
  apply char_eq_of_toNat_eq
  rw [toUpperCh_toNat g1 g2, toLowerCh_toNat h1 h2]
  omega

/-- The down-shift undoes the up-shift on lowercase letters. -/
theorem toLowerCh_toUpperCh {c : Char} (h1 : 'a' ≤ c) (h2 : c ≤ 'z') :
    toLowerCh (toUpperCh c) = c := by
  obtain ⟨g1, g2⟩ := toUpperCh_isUpper h1 h2
  apply char_eq_of_toNat_eq
  rw [toLowerCh_toNat g1 g2, toUpperCh_toNat h1 h2]
  have ha : 97 ≤ c.toNat := h1
  omega


/-! ### Step lemmas for the decoding loop -/

/-- Decoding rejects a non-ASCII character in either state. -/
theorem decodeLoop_nonascii {r : Char} (h : 128 ≤ r.toNat) (b : Bool) (t : List Char) :
    decodeLoop b (r :: t) = none := by
  simp [decodeLoop, if_pos h]

/-- After an escape, a character outside the lowercase range is rejected. -/
theorem decodeLoop_bang_bad {r : Char} (h1 : r.toNat < 128) (h2 : r < 'a' ∨ 'z' < r)
    (t : List Char) : decodeLoop true (r :: t) = none := by
  simp [decodeLoop, if_neg (by omega : ¬ 128 ≤ r.toNat), if_pos h2]

/-- After an escape, a lowercase character is shifted up and appended. -/
theorem decodeLoop_bang_ok {r : Char} (h1 : 'a' ≤ r) (h2 : r ≤ 'z') (t : List Char) :
    decodeLoop true (r :: t) = (decodeLoop false t).map (fun l => toUpperCh r :: l) := by
  have hb : r.toNat ≤ 122 := h2
  have hnl : ¬ (r < 'a' ∨ 'z' < r) := by push_neg; exact ⟨h1, h2⟩
  simp [decodeLoop, if_neg (by omega : ¬ 128 ≤ r.toNat), if_neg hnl]

/-- An unescaped `!` switches the loop into the escaped state. -/
theorem decodeLoop_bang_start (t : List Char) :
    decodeLoop false ('!' :: t) = decodeLoop true t := by
  simp [decodeLoop]

/-- A bare uppercase letter is rejected. -/
theorem decodeLoop_upper {r : Char} (h2 : 'A' ≤ r) (h3 : r ≤ 'Z') (t : List Char) :
    decodeLoop false (r :: t) = none := by
  have ha : 65 ≤ r.toNat := h2
  have hb : r.toNat ≤ 90 := h3
  have hne : r ≠ '!' := by
    intro he
    rw [he] at ha
    exact absurd ha (by decide)
  simp [decodeLoop, if_neg (by omega : ¬ 128 ≤ r.toNat), if_neg hne, if_pos (⟨h2, h3⟩ : 'A' ≤ r ∧ r ≤ 'Z')]

/-- Any other ASCII character is passed through unchanged. -/
theorem decodeLoop_plain {r : Char} (h1 : r.toNat < 128) (h2 : r ≠ '!')
    (h3 : ¬ ('A' ≤ r ∧ r ≤ 'Z')) (t : List Char) :
    decodeLoop false (r :: t) = (decodeLoop false t).map (fun l => r :: l) := by
  simp [decodeLoop, if_neg (by omega : ¬ 128 ≤ r.toNat), if_neg h2, if_neg h3]

/-! ### Codec round-trip and injectivity -/

/-- Decoding undoes the escaping loop on lists free of `!` and of
non-ASCII characters. -/
theorem decodeLoop_encodeLoop (l : List Char)
    (h : ∀ c ∈ l, c ≠ '!' ∧ c.toNat < 128) :
    decodeLoop false (encodeLoop l) = some l := by
  induction l with
  | nil => rfl
  | cons c t ih =>
    obtain ⟨hc1, hc2⟩ := h c (by simp)
    have ht : ∀ x ∈ t, x ≠ '!' ∧ x.toNat < 128 := fun x hx => h x (by simp [hx])
    by_cases hu : 'A' ≤ c ∧ c ≤ 'Z'
    · obtain ⟨g1, g2⟩ := toLowerCh_isLower hu.1 hu.2
      have he : encodeLoop (c :: t) = '!' :: toLowerCh c :: encodeLoop t := by
        simp [encodeLoop, if_pos hu]
      rw [he, decodeLoop_bang_start, decodeLoop_bang_ok g1 g2, ih ht,
        toUpperCh_toLowerCh hu.1 hu.2]
      rfl
    · have he : encodeLoop (c :: t) = c :: encodeLoop t := by
        simp [encodeLoop, if_neg hu]
      rw [he, decodeLoop_plain hc2 hc1 hu, ih ht]
      rfl

/-- Decoding accepts unescaped lists: no `!`, no uppercase, ASCII only. -/
theorem decodeLoop_id (l : List Char)
    (h : ∀ c ∈ l, c ≠ '!' ∧ c.toNat < 128 ∧ ¬ ('A' ≤ c ∧ c ≤ 'Z')) :
    decodeLoop false l = some l := by
  induction l with
  | nil => rfl
  | cons c t ih =>
    obtain ⟨hc1, hc2, hc3⟩ := h c (by simp)
    have ht : ∀ x ∈ t, x ≠ '!' ∧ x.toNat < 128 ∧ ¬ ('A' ≤ x ∧ x ≤ 'Z') :=
      fun x hx => h x (by simp [hx])
    rw [decodeLoop_plain hc2 hc1 hc3, ih ht]
    rfl

/-- An accepted encoding is the canonical escaping of its decoding: strong
induction on the input length (an escape consumes two characters). -/
theorem decodeLoop_canon :
    ∀ n l p, List.length l ≤ n → decodeLoop false l = some p → l = encodeLoop p := by
  intro n
  induction n with
  | zero =>
    intro l p hl hd
    have : l = [] := List.eq_nil_of_length_eq_zero (Nat.le_zero.mp hl)
    subst this
    have : p = [] := by
      have : some ([] : List Char) = some p := hd
      exact (Option.some_inj.mp this).symm
    subst this
    rfl
  | succ n ih =>
    intro l p hl hd
    cases l with
    | nil =>
      have : p = [] := by
        have : some ([] : List Char) = some p := hd
        exact (Option.some_inj.mp this).symm
      subst this
      rfl
    | cons c t =>
      by_cases h128 : 128 ≤ c.toNat
      · rw [decodeLoop_nonascii h128] at hd
        exact absurd hd (by simp)
      · by_cases hbang : c = '!'
        · subst hbang
          rw [decodeLoop_bang_start] at hd
          cases t with
          | nil => exact absurd hd (by simp [decodeLoop])
          | cons c2 t2 =>
            by_cases h128b : 128 ≤ c2.toNat
            · rw [decodeLoop_nonascii h128b] at hd
              exact absurd hd (by simp)
            · by_cases hlow : 'a' ≤ c2 ∧ c2 ≤ 'z'
              · rw [decodeLoop_bang_ok hlow.1 hlow.2] at hd
                cases hq : decodeLoop false t2 with
                | none =>
                  rw [hq] at hd
                  exact absurd hd (by simp)
                | some p2 =>
                  rw [hq] at hd
                  have hp : p = toUpperCh c2 :: p2 := by
                    simpa using hd.symm
                  subst hp
                  have ht2 : t2 = encodeLoop p2 := by
                    refine ih t2 p2 ?_ hq
                    have := hl
                    simp only [List.length_cons] at this
                    omega
                  obtain ⟨u1, u2⟩ := toUpperCh_isUpper hlow.1 hlow.2
                  have : encodeLoop (toUpperCh c2 :: p2) =
                      '!' :: toLowerCh (toUpperCh c2) :: encodeLoop p2 := by
                    simp [encodeLoop, if_pos (⟨u1, u2⟩ : 'A' ≤ toUpperCh c2 ∧ toUpperCh c2 ≤ 'Z')]
                  rw [this, toLowerCh_toUpperCh hlow.1 hlow.2, ← ht2]
              · have hsp : c2 < 'a' ∨ 'z' < c2 := by
                  rcases not_and_or.mp hlow with h | h
                  · exact Or.inl (lt_of_not_le h)
                  · exact Or.inr (lt_of_not_le h)
                rw [decodeLoop_bang_bad (by omega) hsp] at hd
                exact absurd hd (by simp)
        · by_cases hup : 'A' ≤ c ∧ c ≤ 'Z'
          · rw [decodeLoop_upper hup.1 hup.2] at hd
            exact absurd hd (by simp)
          · rw [decodeLoop_plain (by omega) hbang hup] at hd
            cases hq : decodeLoop false t with
            | none =>
              rw [hq] at hd
              exact absurd hd (by simp)
            | some p2 =>
              rw [hq] at hd
              have hp : p = c :: p2 := by
                simpa using hd.symm
              subst hp
              have ht : t = encodeLoop p2 := by
                refine ih t p2 ?_ hq
                have := hl
                simp only [List.length_cons] at this
                omega
              have : encodeLoop (c :: p2) = c :: encodeLoop p2 := by
                simp [encodeLoop, if_neg hup]
              rw [this, ← ht]

/-- C1: the path codec is a bijection between valid plaintexts and
encodings: every ASCII string without the escape marker `!` encodes
successfully and decodes back to itself with `ok = true`, and `decodePath`
is injective on accepted encodings, so no two distinct accepted encodings
decode to the same plaintext. -/
theorem encodePath_decodePath_bijective :
    (∀ s : String, (∀ c ∈ s.data, c ≠ '!' ∧ c.toNat < 128) →
      ∃ e, encodePath s = some e ∧ decodePath e = (s, true)) ∧
    (∀ e1 e2 p : String, decodePath e1 = (p, true) → decodePath e2 = (p, true) →
      e1 = e2) := by
  constructor
  · intro s h
    have hA : (s.data.any (fun r => decide (r = '!' ∨ 128 ≤ r.toNat))) = false := by
      simp only [List.any_eq_false, decide_eq_true_eq]
      intro x hx
      obtain ⟨hx1, hx2⟩ := h x hx
      push_neg
      exact ⟨hx1, by omega⟩
    by_cases hU : (s.data.any (fun r => decide ('A' ≤ r ∧ r ≤ 'Z'))) = true
    · refine ⟨String.mk (encodeLoop s.data), ?_, ?_⟩
      · show encodePath s = some (String.mk (encodeLoop s.data))
        unfold encodePath
        rw [hA, hU]
        simp
      · show decodePath (String.mk (encodeLoop s.data)) = (s, true)
        have : decodeLoop false (encodeLoop s.data) = some s.data :=
          decodeLoop_encodeLoop s.data h
        simp only [decodePath, this]
    · refine ⟨s, ?_, ?_⟩
      · have hU' : (s.data.any (fun r => decide ('A' ≤ r ∧ r ≤ 'Z'))) = false := by
          simpa using hU
        show encodePath s = some s
        unfold encodePath
        rw [hA, hU']
        simp
      · have hnone : ∀ c ∈ s.data, c ≠ '!' ∧ c.toNat < 128 ∧ ¬ ('A' ≤ c ∧ c ≤ 'Z') := by
          intro x hx
          obtain ⟨hx1, hx2⟩ := h x hx
          refine ⟨hx1, hx2, ?_⟩
          intro hcontra
          apply hU
          simp only [List.any_eq_true, decide_eq_true_eq]
          exact ⟨x, hx, hcontra⟩
        have : decodeLoop false s.data = some s.data := decodeLoop_id s.data hnone
        simp only [decodePath, this]
  · intro e1 e2 p h1 h2
    have key : ∀ e : String, decodePath e = (p, true) → e.data = encodeLoop p.data := by
      intro e he
      cases hq : decodeLoop false e.data with
      | none =>
        rw [decodePath, hq] at he
        exact absurd (congrArg Prod.snd he) (by simp)
      | some l =>
        rw [decodePath, hq] at he
        have hl : String.mk l = p := congrArg Prod.fst he
        have hld : l = p.data := by rw [← hl]
        rw [hld] at hq
        exact decodeLoop_canon e.data.length e.data p.data (le_refl _) hq
    have d1 := key e1 h1
    have d2 := key e2 h2
    have : e1.data = e2.data := by rw [d1, d2]
    calc e1 = String.mk e1.data := rfl
      _ = String.mk e2.data := by rw [this]
      _ = e2 := rfl

/-- Witness for C1 at concrete inputs: the string `aB` round-trips through
the codec, and injectivity applied at the encoding `!a` of `A`. -/
theorem encodePath_decodePath_bijective_wit :
    (∃ e, encodePath "aB" = some e ∧ decodePath e = ("aB", true)) ∧
      ("!a" : String) = "!a" :=
  ⟨encodePath_decodePath_bijective.1 "aB" (by decide),
   encodePath_decodePath_bijective.2 "!a" "!a" "A" (by decide) (by decide)⟩

/-! ### Rejection of malformed encodings -/

/-- Decoded output never contains `!` or a non-ASCII character. -/
theorem decodeLoop_out :
    ∀ l (b : Bool) p, decodeLoop b l = some p → ∀ c ∈ p, c ≠ '!' ∧ c.toNat < 128 := by
  intro l
  induction l with
  | nil =>
    intro b p hd
    cases b with
    | true => exact absurd hd (by simp [decodeLoop])
    | false =>
      have : p = [] := by
        have : some ([] : List Char) = some p := hd
        exact (Option.some_inj.mp this).symm
      subst this
      simp
  | cons r t ih =>
    intro b p hd
    by_cases h128 : 128 ≤ r.toNat
    · rw [decodeLoop_nonascii h128] at hd
      exact absurd hd (by simp)
    · cases b with
      | true =>
        by_cases hlow : 'a' ≤ r ∧ r ≤ 'z'
        · rw [decodeLoop_bang_ok hlow.1 hlow.2] at hd
          cases hq : decodeLoop false t with
          | none =>
            rw [hq] at hd
            exact absurd hd (by simp)
          | some p2 =>
            rw [hq] at hd
            have hp : p = toUpperCh r :: p2 := by simpa using hd.symm
            subst hp
            intro c hc
            rcases List.mem_cons.mp hc with hc | hc
            · subst hc
              obtain ⟨u1, u2⟩ := toUpperCh_isUpper hlow.1 hlow.2
              have ha : 65 ≤ (toUpperCh r).toNat := u1
              have hb : (toUpperCh r).toNat ≤ 90 := u2
              refine ⟨?_, by omega⟩
              intro he
              rw [he] at ha
              exact absurd ha (by decide)
            · exact ih false p2 hq c hc
        · have hsp : r < 'a' ∨ 'z' < r := by
            rcases not_and_or.mp hlow with h | h
            · exact Or.inl (lt_of_not_le h)
            · exact Or.inr (lt_of_not_le h)
          rw [decodeLoop_bang_bad (by omega) hsp] at hd
          exact absurd hd (by simp)
      | false =>
        by_cases hbang : r = '!'
        · subst hbang
          rw [decodeLoop_bang_start] at hd
          exact ih true p hd
        · by_cases hup : 'A' ≤ r ∧ r ≤ 'Z'
          · rw [decodeLoop_upper hup.1 hup.2] at hd
            exact absurd hd (by simp)
          · rw [decodeLoop_plain (by omega) hbang hup] at hd
            cases hq : decodeLoop false t with
            | none =>
              rw [hq] at hd
              exact absurd hd (by simp)
            | some p2 =>
              rw [hq] at hd
              have hp : p = r :: p2 := by simpa using hd.symm
              subst hp
              intro c hc
              rcases List.mem_cons.mp hc with hc | hc
              · subst hc
                exact ⟨hbang, by omega⟩
              · exact ih false p2 hq c hc


/-- Every character of a canonical encoding is the escape marker, the
down-shift of an uppercase letter of the plaintext, or a non-uppercase
character of the plaintext. -/
theorem mem_encodeLoop (p : List Char) (x : Char) (hx : x ∈ encodeLoop p) :
    x = '!' ∨ (∃ c ∈ p, ('A' ≤ c ∧ c ≤ 'Z') ∧ x = toLowerCh c) ∨
      (x ∈ p ∧ ¬ ('A' ≤ x ∧ x ≤ 'Z')) := by
  induction p with
  | nil => exact absurd hx (by simp [encodeLoop])
  | cons c t ih =>
    by_cases hu : 'A' ≤ c ∧ c ≤ 'Z'
    · rw [show encodeLoop (c :: t) = '!' :: toLowerCh c :: encodeLoop t by
        simp [encodeLoop, if_pos hu]] at hx
      rcases List.mem_cons.mp hx with hx | hx
      · exact Or.inl hx
      · rcases List.mem_cons.mp hx with hx | hx
        · exact Or.inr (Or.inl ⟨c, by simp, hu, hx⟩)
        · rcases ih hx with h | ⟨c2, hc2, hup2, hxe⟩ | ⟨hmem, hnup⟩
          · exact Or.inl h
          · exact Or.inr (Or.inl ⟨c2, by simp [hc2], hup2, hxe⟩)
          · exact Or.inr (Or.inr ⟨by simp [hmem], hnup⟩)
    · rw [show encodeLoop (c :: t) = c :: encodeLoop t by
        simp [encodeLoop, if_neg hu]] at hx
      rcases List.mem_cons.mp hx with hx | hx
      · exact Or.inr (Or.inr ⟨by simp [hx], by rw [hx]; exact hu⟩)
      · rcases ih hx with h | ⟨c2, hc2, hup2, hxe⟩ | ⟨hmem, hnup⟩
        · exact Or.inl h
        · exact Or.inr (Or.inl ⟨c2, by simp [hc2], hup2, hxe⟩)
        · exact Or.inr (Or.inr ⟨by simp [hmem], hnup⟩)

/-- Canonical encodings contain no non-ASCII character. -/
theorem encodeLoop_no_nonascii (p : List Char) (h : ∀ c ∈ p, c.toNat < 128) :
    hasNonAscii (encodeLoop p) = false := by
  rw [hasNonAscii, List.any_eq_false]
  intro x hx
  simp only [decide_eq_true_eq]
  rcases mem_encodeLoop p x hx with hb | ⟨c, hc, hup, hxe⟩ | ⟨hmem, _⟩
  · rw [hb]; decide
  · have := toLowerCh_toNat hup.1 hup.2
    have hbd : c.toNat ≤ 90 := hup.2
    rw [hxe]
    omega
  · have := h x hmem
    omega

/-- Canonical encodings contain no uppercase letter. -/
theorem encodeLoop_no_upper (p : List Char) : hasUpperCh (encodeLoop p) = false := by
  rw [hasUpperCh, List.any_eq_false]
  intro x hx
  simp only [decide_eq_true_eq]
  rcases mem_encodeLoop p x hx with hb | ⟨c, hc, hup, hxe⟩ | ⟨hmem, hnup⟩
  · rw [hb]; decide
  · obtain ⟨g1, g2⟩ := toLowerCh_isLower hup.1 hup.2
    have ha : 97 ≤ (toLowerCh c).toNat := g1
    rw [hxe]
    intro hcon
    have hbd : (toLowerCh c).toNat ≤ 90 := hcon.2
    omega
  · exact hnup

/-- A cons is free of bad escape windows when its head is not `!` and its
tail is free of them. -/
theorem hasBadBang_cons (a : Char) (l : List Char) (ha : a ≠ '!')
    (hl : hasBadBang l = false) : hasBadBang (a :: l) = false := by
  cases l with
  | nil => simp [hasBadBang]
  | cons b l2 => simp [hasBadBang, ha, hl]

/-- Canonical encodings never end with the escape marker. -/
theorem encodeLoop_getLast (p : List Char) (h : ∀ c ∈ p, c ≠ '!') :
    (encodeLoop p).getLast? ≠ some '!' := by
  induction p with
  | nil => simp [encodeLoop]
  | cons c t ih =>
    have ht : ∀ x ∈ t, x ≠ '!' := fun x hx => h x (by simp [hx])
    by_cases hu : 'A' ≤ c ∧ c ≤ 'Z'
    · rw [show encodeLoop (c :: t) = '!' :: toLowerCh c :: encodeLoop t by
        simp [encodeLoop, if_pos hu]]
      obtain ⟨g1, _⟩ := toLowerCh_isLower hu.1 hu.2
      have hlo : 97 ≤ (toLowerCh c).toNat := g1
      cases hq : encodeLoop t with
      | nil =>
        simp only [List.getLast?_cons_cons, List.getLast?_singleton]
        intro he
        have : (toLowerCh c) = '!' := Option.some_inj.mp he
        rw [this] at hlo
        exact absurd hlo (by decide)
      | cons b l2 =>
        simp only [List.getLast?_cons_cons]
        rw [← hq]
        exact ih ht
    · rw [show encodeLoop (c :: t) = c :: encodeLoop t by
        simp [encodeLoop, if_neg hu]]
      cases hq : encodeLoop t with
      | nil =>
        simp only [List.getLast?_singleton]
        intro he
        exact h c (by simp) (Option.some_inj.mp he)
      | cons b l2 =>
        simp only [List.getLast?_cons_cons]
        rw [← hq]
        exact ih ht

/-- Canonical encodings contain no bad escape window: every `!` is followed
by a lowercase letter. -/
theorem encodeLoop_no_badBang (p : List Char) (h : ∀ c ∈ p, c ≠ '!') :
    hasBadBang (encodeLoop p) = false := by
  induction p with
  | nil => rfl
  | cons c t ih =>
    have ht : ∀ x ∈ t, x ≠ '!' := fun x hx => h x (by simp [hx])
    by_cases hu : 'A' ≤ c ∧ c ≤ 'Z'
    · rw [show encodeLoop (c :: t) = '!' :: toLowerCh c :: encodeLoop t by
        simp [encodeLoop, if_pos hu]]
      obtain ⟨g1, g2⟩ := toLowerCh_isLower hu.1 hu.2
      have hlo : 97 ≤ (toLowerCh c).toNat := g1
      have hne : toLowerCh c ≠ '!' := by
        intro he
        rw [he] at hlo
        exact absurd hlo (by decide)
      have htail : hasBadBang (toLowerCh c :: encodeLoop t) = false :=
        hasBadBang_cons _ _ hne (ih ht)
      simp [hasBadBang, htail, g1, g2]
    · rw [show encodeLoop (c :: t) = c :: encodeLoop t by
        simp [encodeLoop, if_neg hu]]
      exact hasBadBang_cons _ _ (h c (by simp)) (ih ht)

/-- Shared rejection lemma: a string ending in `!`, containing a bad escape
window, an uppercase letter, or a non-ASCII character is not an accepted
encoding. -/
theorem decodePath_invalid_aux (s : String)
    (h : s.data.getLast? = some '!' ∨ hasBadBang s.data = true ∨
      hasUpperCh s.data = true ∨ hasNonAscii s.data = true) :
    (decodePath s).2 = false := by
  cases hq : decodeLoop false s.data with
  | none => simp [decodePath, hq]
  | some p =>
    exfalso
    have hcanon : s.data = encodeLoop p :=
      decodeLoop_canon s.data.length s.data p (le_refl _) hq
    have hout := decodeLoop_out s.data false p hq
    have hne : ∀ c ∈ p, c ≠ '!' := fun c hc => (hout c hc).1
    have hascii : ∀ c ∈ p, c.toNat < 128 := fun c hc => (hout c hc).2
    rcases h with h | h | h | h
    · rw [hcanon] at h
      exact encodeLoop_getLast p hne h
    · rw [hcanon, encodeLoop_no_badBang p hne] at h
      exact Bool.false_ne_true h
    · rw [hcanon, encodeLoop_no_upper p] at h
      exact Bool.false_ne_true h
    · rw [hcanon, encodeLoop_no_nonascii p hascii] at h
      exact Bool.false_ne_true h

/-- C9: `decodePath` rejects every malformed encoding rather than guessing:
any input ending with `!`, containing `!` followed by a non-lowercase
character, containing an uppercase ASCII letter, or containing a non-ASCII
character decodes to the invalid signal `ok = false`. -/
theorem decodePath_rejects_malformed (s : String)
    (h : s.data.getLast? = some '!' ∨ hasBadBang s.data = true ∨
      hasUpperCh s.data = true ∨ hasNonAscii s.data = true) :
    (decodePath s).2 = false :=
  decodePath_invalid_aux s h

/-- Witness for C9 at the concrete inputs `ab!`, `a!A`, `aB` and `aé`. -/
theorem decodePath_rejects_malformed_wit :
    (decodePath "ab!").2 = false ∧ (decodePath "a!A").2 = false ∧
      (decodePath "aB").2 = false ∧ (decodePath "aé").2 = false :=
  ⟨decodePath_rejects_malformed "ab!" (Or.inl (by decide)),
   decodePath_rejects_malformed "a!A" (Or.inr (Or.inl (by decide))),
   decodePath_rejects_malformed "aB" (Or.inr (Or.inr (Or.inl (by decide)))),
   decodePath_rejects_malformed "aé" (Or.inr (Or.inr (Or.inr (by decide))))⟩

/-! ### Resolution lemmas -/

/-- A dash-less version is skipped by the abbreviated branch. -/
theorem findMod_cons_hex_none {ver v : String} (h : hexVer ver = true)
    (hq : lastIdxOf '-' v.data = none) (rest : List String) :
    findMod ver (v :: rest) = findMod ver rest := by
  simp [findMod, h, hq]

/-- A version whose fragment matches in either direction is returned. -/
theorem findMod_cons_hex_match {ver v : String} (h : hexVer ver = true) {i : Nat}
    (hq : lastIdxOf '-' v.data = some i)
    (hm : (List.isPrefixOf ver.data (v.data.drop (i + 1)) ||
      List.isPrefixOf (v.data.drop (i + 1)) ver.data) = true) (rest : List String) :
    findMod ver (v :: rest) = (v, true) := by
  rcases Bool.or_eq_true_iff.mp hm with h1 | h1
  · simp [findMod, h, hq, h1]
  · by_cases h2 : List.isPrefixOf ver.data (v.data.drop (i + 1)) = true
    · simp [findMod, h, hq, h2]
    · have h2' : List.isPrefixOf ver.data (v.data.drop (i + 1)) = false :=
        Bool.eq_false_iff.mpr h2
      simp [findMod, h, hq, h2', h1]

/-- A version whose fragment matches in neither direction is skipped. -/
theorem findMod_cons_hex_skip {ver v : String} (h : hexVer ver = true) {i : Nat}
    (hq : lastIdxOf '-' v.data = some i)
    (h1 : List.isPrefixOf ver.data (v.data.drop (i + 1)) = false)
    (h2 : List.isPrefixOf (v.data.drop (i + 1)) ver.data = false) (rest : List String) :
    findMod ver (v :: rest) = findMod ver rest := by
  simp [findMod, h, hq, h1, h2]

/-- On an abbreviated-hex token, `findMod` returns the first known version
whose after-last-dash fragment and the token are prefixes of one another. -/
theorem findMod_hex (ver : String) (h : hexVer ver = true) :
    ∀ vers, findMod ver vers =
      match vers.find? (dashMatch ver) with
      | some v => (v, true)
      | none => (ver, false) := by
  intro vers
  induction vers with
  | nil => rfl
  | cons v rest ih =>
    by_cases hm : dashMatch ver v = true
    · rw [List.find?_cons_of_pos _ hm]
      rw [dashMatch] at hm
      cases hq : lastIdxOf '-' v.data with
      | none => rw [hq] at hm; exact absurd hm (by simp)
      | some i =>
        rw [hq] at hm
        exact findMod_cons_hex_match h hq hm rest
    · rw [List.find?_cons_of_neg _ hm]
      rw [dashMatch] at hm
      cases hq : lastIdxOf '-' v.data with
      | none => rw [findMod_cons_hex_none h hq rest]; exact ih
      | some i =>
        rw [hq] at hm
        have hm' := hm
        rw [Bool.or_eq_true_iff] at hm'
        push_neg at hm'
        rw [findMod_cons_hex_skip h hq (Bool.eq_false_iff.mpr hm'.1)
          (Bool.eq_false_iff.mpr hm'.2) rest]
        exact ih

/-- On a non-hex token, `findMod` looks the token up literally. -/
theorem findMod_exact (ver : String) (h : hexVer ver = false) :
    ∀ vers, findMod ver vers = (ver, vers.contains ver) := by
  intro vers
  induction vers with
  | nil => rfl
  | cons v rest ih =>
    by_cases hv : ver = v
    · subst hv
      simp [findMod, h, List.contains_cons]
    · have e : (ver == v) = false := beq_eq_false_iff_ne.mpr hv
      rw [show findMod ver (v :: rest) = findMod ver rest by simp [findMod, h, hv], ih,
        List.contains_cons, e, Bool.false_or]

/-- C2: an abbreviated (all-lowercase-hex) token matches a known version v
exactly when v contains a dash and the fragment after the last dash and the
token are prefixes of one another (both directions accepted); versions
without a dash never match, and the first matching version in iteration
order is returned with found = true. -/
theorem findMod_abbrev_resolution (ver : String) (h : hexVer ver = true)
    (vers : List String) :
    findMod ver vers =
      match vers.find? (fun v =>
        match lastIdxOf '-' v.data with
        | none => false
        | some i =>
          List.isPrefixOf ver.data (v.data.drop (i + 1)) ||
            List.isPrefixOf (v.data.drop (i + 1)) ver.data) with
      | some v => (v, true)
      | none => (ver, false) :=
  findMod_hex ver h vers

/-- Witness for C2: the abbreviated token `c85619` selects the first
pseudo-version carrying that revision fragment. -/
theorem findMod_abbrev_resolution_wit :
    findMod "c85619" ["v1.2.3", "v0.0.0-20180517173623-c85619274f5d"] =
      ("v0.0.0-20180517173623-c85619274f5d", true) := by
  rw [findMod_abbrev_resolution "c85619" (by decide)]
  decide

/-- C3 counterexample: the empty token is classified abbreviated hex and is
a prefix of every fragment, so it selects the first dash-carrying version
instead of failing. -/
theorem findMod_empty_token_cex :
    hexVer "" = true ∧ findMod "" ["v1.0.0-x"] = ("v1.0.0-x", true) := by
  decide

/-- C3 amended: resolving the empty token returns the first known version
containing a dash with found = true (the empty token is a prefix of every
fragment), and found = false only when no known version contains a dash. -/
theorem findMod_empty_token_amended (vers : List String) :
    findMod "" vers =
      match vers.find? (fun v => (lastIdxOf '-' v.data).isSome) with
      | some v => (v, true)
      | none => ("", false) := by
  have hfun : dashMatch "" = fun v => (lastIdxOf '-' v.data).isSome := by
    funext v
    rw [dashMatch]
    cases hq : lastIdxOf '-' v.data with
    | none => simp [hq]
    | some i => simp [hq, List.isPrefixOf]
  rw [findMod_hex "" (by decide) vers, hfun]

/-- C8: a token that is not all lowercase hex resolves by literal lookup:
found exactly when the token is one of the known versions, and the matched
version is the token itself. -/
theorem findMod_exact_resolution (ver : String) (h : hexVer ver = false)
    (vers : List String) :
    findMod ver vers = (ver, vers.contains ver) ∧
      (vers.contains ver = true ↔ ver ∈ vers) :=
  ⟨findMod_exact ver h vers, List.elem_iff⟩

/-- Witness for C8: the token `zz` is not hex and is absent, so resolution
fails; present tokens are returned literally. -/
theorem findMod_exact_resolution_wit :
    findMod "zz" ["v1.2.3"] = ("zz", false) ∧
      findMod "v1.2.3" ["v1.2.3"] = ("v1.2.3", true) := by
  refine ⟨?_, ?_⟩
  · rw [(findMod_exact_resolution "zz" (by decide) ["v1.2.3"]).1]
    decide
  · rw [(findMod_exact_resolution "v1.2.3" (by decide) ["v1.2.3"]).1]
    decide

/-! ### Scanner lemmas -/

/-- C5: the scanning loop returns the version field of the first progress
line with exactly four fields whose second field is `downloading` and whose
third field equals the requested package key exactly (lines naming any
other package yield `none` in `lineVer` and are skipped), and returns the
original token when no line matches. -/
theorem fetchScan_resolved (mod ver : String) (lines : List String) :
    fetchScanVer mod ver lines = (lines.findSome? (lineVer mod)).getD ver ∧
      ((∀ l ∈ lines, lineVer mod l = none) → fetchScanVer mod ver lines = ver) := by
  have key : fetchScanVer mod ver lines = (lines.findSome? (lineVer mod)).getD ver := by
    induction lines with
    | nil => rfl
    | cons l rest ih =>
      cases hq : lineVer mod l with
      | some v => simp [fetchScanVer, List.findSome?_cons, hq]
      | none => simp [fetchScanVer, List.findSome?_cons, hq, ih]
  refine ⟨key, fun h => ?_⟩
  rw [key, List.findSome?_eq_none_iff.mpr h]
  rfl

/-- Witness for C5: a transitive package's line is ignored, the requested
package's line supplies the version, and without a matching line the token
is returned. -/
theorem fetchScan_resolved_wit :
    fetchScanVer "m" "abc" ["go: downloading dep v2.0.0", "go: downloading m v1.0.0"] =
        "v1.0.0" ∧
      fetchScanVer "m" "abc" ["go: downloading dep v2.0.0"] = "abc" := by
  refine ⟨?_, ?_⟩
  · rw [(fetchScan_resolved "m" "abc"
      ["go: downloading dep v2.0.0", "go: downloading m v1.0.0"]).1]
    decide
  · exact (fetchScan_resolved "m" "abc" ["go: downloading dep v2.0.0"]).2 (by decide)

/-! ### Metadata synthesis lemmas -/

/-- The second element of a three-element list. -/
theorem get1_of_eq {l : List String} {a b c : String} (hl : l = [a, b, c])
    (h1 : 1 < l.length) : l.get ⟨1, h1⟩ = b := by
  subst hl
  rfl

/-- C6: when the resolved version splits on dashes into exactly three
segments, the synthesized metadata's Time is the middle segment parsed as
YYYYMMDDHHMMSS; otherwise the current time is used; in particular the
pseudo-version v0.0.0-20180517173623-c85619274f5d yields the Time
2018-05-17T17:36:23Z. -/
theorem synthInfo_spec :
    (∀ v now, (goSplitDash v).length ≠ 3 →
      synthInfo v now = some (infoJson v (fmtRFC3339 now))) ∧
    (∀ v b now t, (∃ a c, goSplitDash v = [a, b, c]) → parseStamp b = some t →
      synthInfo v now = some (infoJson v (fmtRFC3339 t))) ∧
    (∀ now, synthInfo "v0.0.0-20180517173623-c85619274f5d" now =
      some (infoJson "v0.0.0-20180517173623-c85619274f5d" "2018-05-17T17:36:23Z")) := by
  refine ⟨?_, ?_, ?_⟩
  · intro v now h
    simp only [synthInfo]
    rw [dif_neg h]
  · intro v b now t hex hp
    obtain ⟨a, c, hsp⟩ := hex
    have h3 : (goSplitDash v).length = 3 := by rw [hsp]; rfl
    simp only [synthInfo]
    rw [dif_pos h3, get1_of_eq hsp, hp]
    rfl
  · intro now
    rfl

/-- Witness for C6 at a dash-less version and at the pseudo-version of the
claim. -/
theorem synthInfo_spec_wit :
    synthInfo "abc" ⟨2020, 1, 2, 3, 4, 5⟩ =
        some (infoJson "abc" (fmtRFC3339 ⟨2020, 1, 2, 3, 4, 5⟩)) ∧
      synthInfo "v0.0.0-20180517173623-c85619274f5d" ⟨2020, 1, 1, 0, 0, 0⟩ =
        some (infoJson "v0.0.0-20180517173623-c85619274f5d"
          (fmtRFC3339 ⟨2018, 5, 17, 17, 36, 23⟩)) :=
  ⟨synthInfo_spec.1 "abc" ⟨2020, 1, 2, 3, 4, 5⟩ (by decide),
   synthInfo_spec.2.1 "v0.0.0-20180517173623-c85619274f5d" "20180517173623"
     ⟨2020, 1, 1, 0, 0, 0⟩ ⟨2018, 5, 17, 17, 36, 23⟩
     ⟨"v0.0.0", "c85619274f5d", by decide⟩ (by decide)⟩

/-! ### Error-message lemmas -/

/-- Removing the inserted tabs recovers the original text. -/
theorem stripTabAfterNl_replaceNl : ∀ l, stripTabAfterNl (replaceNl l) = l := by
  intro l
  induction l with
  | nil => rfl
  | cons c t ih =>
    by_cases hc : c = '\n'
    · subst hc
      rw [show replaceNl ('\n' :: t) = '\n' :: '\t' :: replaceNl t by simp [replaceNl]]
      rw [show stripTabAfterNl ('\n' :: '\t' :: replaceNl t) =
        '\n' :: stripTabAfterNl (replaceNl t) by simp [stripTabAfterNl]]
      rw [ih]
    · rw [show replaceNl (c :: t) = c :: replaceNl t by simp [replaceNl, hc]]
      cases hq : replaceNl t with
      | nil =>
        have ht : t = [] := by
          cases t with
          | nil => rfl
          | cons b t2 =>
            exfalso
            by_cases hb : b = '\n'
            · subst hb; simp [replaceNl] at hq
            · simp [replaceNl, hb] at hq
        subst ht
        rfl
      | cons b l2 =>
        have : stripTabAfterNl (c :: b :: l2) = c :: stripTabAfterNl (b :: l2) := by
          rw [show stripTabAfterNl (c :: b :: l2) =
            if c = '\n' ∧ b = '\t' then '\n' :: stripTabAfterNl l2
            else c :: stripTabAfterNl (b :: l2) from rfl]
          rw [if_neg (fun hand => hc hand.1)]
        rw [this, ← hq, ih]

/-- C7 counterexample: the surfaced error message is not the diagnostic
output byte for byte — it is prefixed with the command line and the
underlying error, trailing newlines are trimmed and newlines are
tab-indented. -/
theorem runErrorMessage_not_verbatim :
    runErrorMessage "go get -d m@v" "exit status 1" "boom\nbad\n" ≠ "boom\nbad\n" := by
  decide

/-- C7 amended: the message carries the diagnostic output after the prefix
`cmd: err:`, with trailing newlines removed and a tab inserted after each
remaining newline; the trimmed diagnostic text is recoverable by deleting
the tab after each newline, but it is not byte-for-byte the message. -/
theorem runErrorMessage_amended (cmd errMsg stderr : String) :
    (runErrorMessage cmd errMsg stderr =
      if (dropTrailingNl stderr.data).length > 0 then
        cmd ++ ": " ++ errMsg ++ ":\n\t" ++ String.mk (replaceNl (dropTrailingNl stderr.data))
      else cmd ++ ": " ++ errMsg) ∧
    stripTabAfterNl (replaceNl (dropTrailingNl stderr.data)) = dropTrailingNl stderr.data :=
  ⟨rfl, stripTabAfterNl_replaceNl (dropTrailingNl stderr.data)⟩

/-! ### Router lemmas -/

/-- Trimming leading slashes keeps a non-slash head unchanged. -/
theorem trimSlash_cons_other {c : Char} (h : c ≠ '/') (t : List Char) :
    trimSlash (c :: t) = c :: t := by
  unfold trimSlash
  split
  · next t2 heq =>
    exfalso
    exact h (List.head_eq_of_cons_eq heq)
  · rfl

/-- Trimming preserves a trailing escape marker. -/
theorem trimSlash_getLast {l : List Char} (h : l.getLast? = some '!') :
    (trimSlash l).getLast? = some '!' := by
  induction l with
  | nil => simpa using h
  | cons c t ih =>
    by_cases hc : c = '/'
    · subst hc
      cases t with
      | nil => simpa using h
      | cons b t2 =>
        rw [show trimSlash ('/' :: b :: t2) = trimSlash (b :: t2) from rfl]
        rw [List.getLast?_cons_cons] at h
        exact ih h
    · rw [trimSlash_cons_other hc t]
      exact h

/-- Trimming preserves the presence of a bad escape window. -/
theorem trimSlash_hasBadBang {l : List Char} (h : hasBadBang l = true) :
    hasBadBang (trimSlash l) = true := by
  induction l with
  | nil => simpa [hasBadBang] using h
  | cons c t ih =>
    by_cases hc : c = '/'
    · subst hc
      cases t with
      | nil => simpa [hasBadBang] using h
      | cons b t2 =>
        rw [show trimSlash ('/' :: b :: t2) = trimSlash (b :: t2) from rfl]
        apply ih
        rw [show hasBadBang ('/' :: b :: t2) =
          (('/' : Char) = '!' && !decide ('a' ≤ b ∧ b ≤ 'z') || hasBadBang (b :: t2))
          from rfl] at h
        simpa using h
    · rw [trimSlash_cons_other hc t]
      exact h

/-- Trimming preserves the presence of an uppercase letter. -/
theorem trimSlash_hasUpper {l : List Char} (h : hasUpperCh l = true) :
    hasUpperCh (trimSlash l) = true := by
  induction l with
  | nil => simpa [hasUpperCh] using h
  | cons c t ih =>
    by_cases hc : c = '/'
    · subst hc
      rw [show trimSlash ('/' :: t) = trimSlash t from rfl]
      apply ih
      rw [hasUpperCh, List.any_cons] at h
      rw [hasUpperCh]
      rcases Bool.or_eq_true_iff.mp h with hbad | hgood
      · exact absurd (of_decide_eq_true hbad).1 (by decide)
      · exact hgood
    · rw [trimSlash_cons_other hc t]
      exact h

/-- C10: the handler decodes the entire trimmed request path with the path
codec before splitting it, so every GET whose path ends with the escape
marker, contains an escape marker followed by a non-lowercase character, or
contains an uppercase letter is answered 404 with no dispatch; and an
escaped uppercase version token reaches the dispatch in decoded form. -/
theorem handleReq_decodes_whole_path :
    (∀ p : String, (p.data.getLast? = some '!' ∨ hasBadBang p.data = true ∨
        hasUpperCh p.data = true) → handleReq "GET" p = Route.notFound) ∧
    handleReq "GET" "/example.com/m/@v/!v1.0.0.info" =
      Route.serve "example.com/m" "V1.0.0" ".info" := by
  constructor
  · intro p h
    have hbad : (decodePath (String.mk (trimSlash p.data))).2 = false := by
      apply decodePath_invalid_aux
      rcases h with h | h | h
      · exact Or.inl (trimSlash_getLast h)
      · exact Or.inr (Or.inl (trimSlash_hasBadBang h))
      · exact Or.inr (Or.inr (Or.inl (trimSlash_hasUpper h)))
    simp [handleReq, hbad]
  · decide

/-- Witness for C10: an uppercase letter anywhere in the raw path produces
404. -/
theorem handleReq_decodes_whole_path_wit :
    handleReq "GET" "/Abc/@v/list" = Route.notFound :=
  handleReq_decodes_whole_path.1 "/Abc/@v/list" (Or.inr (Or.inr (by decide)))
